import Mathlib

/-!
# Verification of the streak-grid date logic of kana-dojo

Shallow embedding of `src/features/Progress/components/StreakGrid.tsx`.
Calendar dates are modelled as year/month/day triples of naturals with
proleptic-Gregorian arithmetic (matching the semantics of the JavaScript
`Date` operations the component uses: `getDay`, `setDate` roll-over,
`new Date(year, month + 1, 0).getDate()`).

The helper library `src/features/Progress/lib/streakCalculations.ts`
(`formatDate`, `getDayOfWeek`, `getMonthName`, `hasVisit`) is not part of
the sources; those definitions are modelled from the specification and
carry a `Modelled from the spec:` doc comment.
-/

/-- A calendar date: `year`/`month`/`day`, month and day 1-based, as produced
by the JavaScript `Date` accessors used in `StreakGrid.tsx`. -/
structure Date where
  year : Nat
  month : Nat
  day : Nat
  deriving DecidableEq, Repr

/-- Gregorian leap-year rule, as implemented by JavaScript `Date` month
arithmetic for February. -/
def isLeap (y : Nat) : Bool :=
  (y % 4 == 0 && y % 100 != 0) || y % 400 == 0

/-- Number of days of month `m` (1-based) of year `y`; this is the value the
source obtains as `new Date(year, month + 1, 0).getDate()`.  Out-of-range
months default to 31 (they never occur on valid dates). -/
def daysInMonth (y m : Nat) : Nat :=
  match m with
  | 2 => if isLeap y then 29 else 28
  | 4 | 6 | 9 | 11 => 30
  | _ => 31

/-- Number of days of year `y`. -/
def daysInYear (y : Nat) : Nat := if isLeap y then 366 else 365

/-- Days strictly before month `m` within year `y` (sum of the lengths of
months `1 .. m-1`). -/
def daysBeforeMonth (y : Nat) : Nat → Nat
  | 0 => 0
  | m + 1 => if m = 0 then 0 else daysBeforeMonth y m + daysInMonth y m

/-- Days from `0001-01-01` (proleptic Gregorian) up to the start of year
`y`. -/
def daysBeforeYear (y : Nat) : Nat :=
  365 * (y - 1) + (y - 1) / 4 - (y - 1) / 100 + (y - 1) / 400

/-- Linear day number of a date: days elapsed since `0001-01-01` (which is a
Monday in the proleptic Gregorian calendar). -/
def toDayNumber (d : Date) : Nat :=
  daysBeforeYear d.year + daysBeforeMonth d.year d.month + (d.day - 1)

/-- A well-formed calendar date. -/
def ValidDate (d : Date) : Prop :=
  1 ≤ d.year ∧ 1 ≤ d.month ∧ d.month ≤ 12 ∧ 1 ≤ d.day ∧
    d.day ≤ daysInMonth d.year d.month

instance (d : Date) : Decidable (ValidDate d) := by
  unfold ValidDate; infer_instance

/-- The calendar date one day later; this is the semantics of the JavaScript
`date.setDate(date.getDate() + 1)` roll-over on a valid date. -/
def nextDay (d : Date) : Date :=
  if d.day < daysInMonth d.year d.month then ⟨d.year, d.month, d.day + 1⟩
  else if d.month < 12 then ⟨d.year, d.month + 1, 1⟩
  else ⟨d.year + 1, 1, 1⟩

/-- The calendar date one day earlier; semantics of the JavaScript
`setDate` roll-over with a non-positive day value. -/
def prevDay (d : Date) : Date :=
  if 1 < d.day then ⟨d.year, d.month, d.day - 1⟩
  else if 1 < d.month then ⟨d.year, d.month - 1, daysInMonth d.year (d.month - 1)⟩
  else ⟨d.year - 1, 12, 31⟩

/-- `addDays d n` is the date `n` days after `d`. -/
def addDays (d : Date) : Nat → Date
  | 0 => d
  | n + 1 => addDays (nextDay d) n

/-- `subDays d n` is the date `n` days before `d`. -/
def subDays (d : Date) : Nat → Date
  | 0 => d
  | n + 1 => subDays (prevDay d) n

/-- Modelled from the spec: `getDayOfWeek` of the missing library
`streakCalculations.ts` — "dayOfWeek(date) -> int in [0,6]: Monday=0 …
Sunday=6 (a Monday-based remap of the standard Sunday-based weekday
index)".  Day number 0 (0001-01-01) is a Monday. -/
def getDayOfWeek (d : Date) : Nat := toDayNumber d % 7

/-- Semantics of the JavaScript `Date.prototype.getDay` (Sunday = 0) used
directly by `getFullWeekDays`. -/
def jsGetDay (d : Date) : Nat := (toDayNumber d + 1) % 7

/-- Chronological (calendar) strict order on dates. -/
def dateLt (a b : Date) : Prop :=
  a.year < b.year ∨ (a.year = b.year ∧
    (a.month < b.month ∨ (a.month = b.month ∧ a.day < b.day)))

instance (a b : Date) : Decidable (dateLt a b) := by
  unfold dateLt; infer_instance

/-! ## Basic arithmetic facts about the calendar model -/

theorem daysInMonth_pos (y m : Nat) : 1 ≤ daysInMonth y m := by
  unfold daysInMonth
  split <;> first | omega | (split <;> omega)

theorem daysInMonth_le_31 (y m : Nat) : daysInMonth y m ≤ 31 := by
  unfold daysInMonth
  split <;> first | omega | (split <;> omega)

theorem daysBeforeMonth_succ (y m : Nat) (hm : 1 ≤ m) :
    daysBeforeMonth y (m + 1) = daysBeforeMonth y m + daysInMonth y m := by
  have : ¬ (m = 0) := by omega
  simp [daysBeforeMonth, this]

theorem isLeap_iff (y : Nat) :
    isLeap y = true ↔ ((y % 4 = 0 ∧ ¬ y % 100 = 0) ∨ y % 400 = 0) := by
  simp [isLeap]

theorem daysBeforeMonth_12 (y : Nat) :
    daysBeforeMonth y 12 + 31 = daysInYear y := by
  by_cases h : isLeap y = true <;>
    simp [daysBeforeMonth, daysInMonth, daysInYear, h]

theorem daysBeforeYear_eq_zero (y : Nat) (h : y ≤ 1) : daysBeforeYear y = 0 := by
  unfold daysBeforeYear; omega

set_option maxHeartbeats 1000000 in
theorem daysBeforeYear_succ (y : Nat) (hy : 1 ≤ y) :
    daysBeforeYear (y + 1) = daysBeforeYear y + daysInYear y := by
  unfold daysBeforeYear daysInYear
  by_cases h : isLeap y = true
  · rw [if_pos h]
    rw [isLeap_iff] at h
    rcases h with ⟨h4, h100⟩ | h400 <;> omega
  · rw [if_neg h]
    rw [isLeap_iff] at h
    push_neg at h
    obtain ⟨h1, h400⟩ := h
    by_cases h4 : y % 4 = 0
    · have h100 := h1 h4
      omega
    · omega

theorem daysBeforeYear_mono {y1 y2 : Nat} (h : y1 ≤ y2) :
    daysBeforeYear y1 ≤ daysBeforeYear y2 := by
  obtain ⟨k, rfl⟩ : ∃ k, y2 = y1 + k := ⟨y2 - y1, by omega⟩
  clear h
  induction k with
  | zero => exact Nat.le_refl _
  | succ k ih =>
    by_cases hz : y1 + k = 0
    · obtain ⟨rfl, rfl⟩ : y1 = 0 ∧ k = 0 := by omega
      rw [daysBeforeYear_eq_zero 0 (by omega), daysBeforeYear_eq_zero _ (by omega)]
    · calc daysBeforeYear y1 ≤ daysBeforeYear (y1 + k) := ih
        _ ≤ daysBeforeYear (y1 + k) + daysInYear (y1 + k) := Nat.le_add_right _ _
        _ = daysBeforeYear (y1 + (k + 1)) := (daysBeforeYear_succ _ (by omega)).symm

theorem validDate_mk (a b c : Nat) :
    ValidDate ⟨a, b, c⟩ ↔ 1 ≤ a ∧ 1 ≤ b ∧ b ≤ 12 ∧ 1 ≤ c ∧ c ≤ daysInMonth a b :=
  Iff.rfl

theorem toDayNumber_mk (a b c : Nat) :
    toDayNumber ⟨a, b, c⟩ = daysBeforeYear a + daysBeforeMonth a b + (c - 1) :=
  rfl

theorem toDayNumber_nextDay (d : Date) (hv : ValidDate d) :
    ValidDate (nextDay d) ∧ toDayNumber (nextDay d) = toDayNumber d + 1 := by
  obtain ⟨y, m, c⟩ := d
  obtain ⟨hy, hm1, hm2, hd1, hd2⟩ := hv
  unfold nextDay
  simp only at *
  split
  · next h =>
    exact ⟨(validDate_mk _ _ _).mpr ⟨hy, hm1, hm2, by omega, by omega⟩,
      by rw [toDayNumber_mk, toDayNumber_mk]; omega⟩
  · next h =>
    split
    · next h12 =>
      refine ⟨(validDate_mk _ _ _).mpr
        ⟨hy, by omega, by omega, by omega, daysInMonth_pos y (m + 1)⟩, ?_⟩
      rw [toDayNumber_mk, toDayNumber_mk, daysBeforeMonth_succ y m hm1]
      omega
    · next h12 =>
      have hm : m = 12 := by omega
      subst hm
      have hday : c = 31 := by
        have : daysInMonth y 12 = 31 := rfl
        omega
      subst hday
      refine ⟨(validDate_mk _ _ _).mpr
        ⟨by omega, by omega, by omega, by omega, daysInMonth_pos (y + 1) 1⟩, ?_⟩
      rw [toDayNumber_mk, toDayNumber_mk, daysBeforeYear_succ y hy]
      have h12' : daysBeforeMonth y 12 + 31 = daysInYear y := daysBeforeMonth_12 y
      have hb1 : daysBeforeMonth (y + 1) 1 = 0 := rfl
      omega

theorem toDayNumber_prevDay (d : Date) (hv : ValidDate d)
    (hpos : 1 ≤ toDayNumber d) :
    ValidDate (prevDay d) ∧ toDayNumber (prevDay d) + 1 = toDayNumber d := by
  obtain ⟨y, m, c⟩ := d
  obtain ⟨hy, hm1, hm2, hd1, hd2⟩ := hv
  unfold prevDay
  simp only at *
  rw [toDayNumber_mk] at hpos
  split
  · next h =>
    exact ⟨(validDate_mk _ _ _).mpr ⟨hy, hm1, hm2, by omega, by omega⟩,
      by rw [toDayNumber_mk, toDayNumber_mk]; omega⟩
  · next h =>
    have hd : c = 1 := by omega
    subst hd
    split
    · next h2 =>
      refine ⟨(validDate_mk _ _ _).mpr
        ⟨hy, by omega, by omega, daysInMonth_pos _ _, Nat.le_refl _⟩, ?_⟩
      rw [toDayNumber_mk, toDayNumber_mk]
      have hstep : daysBeforeMonth y (m - 1) + daysInMonth y (m - 1)
          = daysBeforeMonth y m := by
        have h' := daysBeforeMonth_succ y (m - 1) (by omega)
        have hmm : m - 1 + 1 = m := by omega
        rw [hmm] at h'
        omega
      have hdp := daysInMonth_pos y (m - 1)
      omega
    · next h2 =>
      have hm : m = 1 := by omega
      subst hm
      have hy2 : 2 ≤ y := by
        by_contra hc
        have hz := daysBeforeYear_eq_zero y (by omega)
        have hb1 : daysBeforeMonth y 1 = 0 := rfl
        omega
      refine ⟨(validDate_mk _ _ _).mpr
        ⟨by omega, by omega, by omega, by omega, Nat.le_refl _⟩, ?_⟩
      rw [toDayNumber_mk, toDayNumber_mk]
      have hstep : daysBeforeYear (y - 1 + 1)
          = daysBeforeYear (y - 1) + daysInYear (y - 1) :=
        daysBeforeYear_succ _ (by omega)
      have h12' : daysBeforeMonth (y - 1) 12 + 31 = daysInYear (y - 1) :=
        daysBeforeMonth_12 _
      have hb1 : daysBeforeMonth y 1 = 0 := rfl
      have hyy : y - 1 + 1 = y := by omega
      rw [hyy] at hstep
      omega

theorem toDayNumber_addDays (d : Date) (hv : ValidDate d) (n : Nat) :
    ValidDate (addDays d n) ∧ toDayNumber (addDays d n) = toDayNumber d + n := by
  induction n generalizing d with
  | zero => exact ⟨hv, rfl⟩
  | succ n ih =>
    obtain ⟨hv', hN'⟩ := toDayNumber_nextDay d hv
    obtain ⟨hv'', hN''⟩ := ih (nextDay d) hv'
    exact ⟨hv'', by show toDayNumber (addDays (nextDay d) n) = _; omega⟩

theorem toDayNumber_subDays (d : Date) (hv : ValidDate d) (n : Nat)
    (hn : n ≤ toDayNumber d) :
    ValidDate (subDays d n) ∧ toDayNumber (subDays d n) = toDayNumber d - n := by
  induction n generalizing d with
  | zero => exact ⟨hv, rfl⟩
  | succ n ih =>
    obtain ⟨hv', hN'⟩ := toDayNumber_prevDay d hv (by omega)
    obtain ⟨hv'', hN''⟩ := ih (prevDay d) hv' (by omega)
    exact ⟨hv'', by show toDayNumber (subDays (prevDay d) n) = _; omega⟩

theorem daysBeforeMonth_mono (y : Nat) {m1 m2 : Nat} (h : m1 ≤ m2) :
    daysBeforeMonth y m1 ≤ daysBeforeMonth y m2 := by
  obtain ⟨k, rfl⟩ : ∃ k, m2 = m1 + k := ⟨m2 - m1, by omega⟩
  clear h
  induction k with
  | zero => exact Nat.le_refl _
  | succ k ih =>
    have step : daysBeforeMonth y (m1 + k) ≤ daysBeforeMonth y (m1 + k + 1) := by
      by_cases hz : m1 + k = 0
      · rw [hz]
        exact Nat.zero_le _
      · rw [daysBeforeMonth_succ y (m1 + k) (by omega)]
        exact Nat.le_add_right _ _
    exact le_trans ih step

theorem toDayNumber_year_bounds (d : Date) (hv : ValidDate d) :
    daysBeforeYear d.year ≤ toDayNumber d ∧
      toDayNumber d < daysBeforeYear (d.year + 1) := by
  obtain ⟨y, m, c⟩ := d
  obtain ⟨hy, hm1, hm2, hd1, hd2⟩ := hv
  simp only at *
  rw [toDayNumber_mk]
  constructor
  · omega
  · rw [daysBeforeYear_succ y hy]
    have h1 : daysBeforeMonth y m + daysInMonth y m = daysBeforeMonth y (m + 1) :=
      (daysBeforeMonth_succ y m hm1).symm
    have h2 : daysBeforeMonth y (m + 1) ≤ daysBeforeMonth y 13 :=
      daysBeforeMonth_mono y (by omega)
    have h3 : daysBeforeMonth y 13 = daysBeforeMonth y 12 + daysInMonth y 12 :=
      daysBeforeMonth_succ y 12 (by omega)
    have h4 : daysInMonth y 12 = 31 := rfl
    have h5 : daysBeforeMonth y 12 + 31 = daysInYear y := daysBeforeMonth_12 y
    omega

theorem year_eq_of_dayNumber_bounds (d : Date) (hv : ValidDate d) (y : Nat)
    (hlo : daysBeforeYear y ≤ toDayNumber d)
    (hhi : toDayNumber d < daysBeforeYear (y + 1)) : d.year = y := by
  obtain ⟨blo, bhi⟩ := toDayNumber_year_bounds d hv
  by_contra hne
  rcases Nat.lt_or_ge d.year y with hlt | hge
  · have := daysBeforeYear_mono (show d.year + 1 ≤ y by omega)
    omega
  · have := daysBeforeYear_mono (show y + 1 ≤ d.year by omega)
    omega

/-! ## Strings: zero-padded date formatting -/

/-- The ASCII digit character for `n` (`n ≤ 9`). -/
def digitChar (n : Nat) : Char := Char.ofNat (48 + n)

/-- Zero-padded `k`-digit decimal rendering of `n < 10 ^ k`. -/
def padNum : Nat → Nat → List Char
  | 0, _ => []
  | k + 1, n => digitChar (n / 10 ^ k) :: padNum k (n % 10 ^ k)

/-- Modelled from the spec: `formatDate` of the missing library
`streakCalculations.ts` — a date rendered as a zero-padded `YYYY-MM-DD`
string (spec sections 3 and 4.1). -/
def formatDate (d : Date) : String :=
  String.mk (padNum 4 d.year ++ '-' :: padNum 2 d.month ++ '-' :: padNum 2 d.day)

/-- Lexicographic comparison of character lists by code point.  JavaScript
`<` on strings compares UTF-16 code units; all strings compared here are
ASCII, where the units are exactly the characters' code points. -/
def charListLt : List Char → List Char → Bool
  | [], [] => false
  | [], _ :: _ => true
  | _ :: _, [] => false
  | a :: as, b :: bs =>
    if a.toNat < b.toNat then true
    else if b.toNat < a.toNat then false
    else charListLt as bs

/-- The JavaScript string comparison `a < b`. -/
def strLt (a b : String) : Bool := charListLt a.data b.data

/-- `isFutureDate` of `StreakGrid.tsx`: `formatDate(new Date())` is the
wall-clock read, modelled by the parameter `now`; `dateStr > today` is the
JavaScript lexicographic string comparison. -/
def isFutureDate (now : Date) (dateStr : String) : Bool :=
  strLt (formatDate now) dateStr

/-- Modelled from the spec: `hasVisit` of the missing library — membership
of a date string in the visit collection (spec sections 2 and 3). -/
def hasVisit (visits : List String) (date : String) : Bool :=
  visits.contains date

/-- The month-name table of `StreakGrid.tsx`. -/
def FULL_MONTH_NAMES : List String :=
  ["January", "February", "March", "April", "May", "June", "July",
   "August", "September", "October", "November", "December"]

/-- The `firstDayInWeek.substring(0, 7)` of the source: the `YYYY-MM` part of
a formatted date.  JavaScript `substring` counts UTF-16 units; every
character of a formatted date is ASCII, so this is the 7-character prefix. -/
def monthKey (d : Date) : String := String.mk ((formatDate d).data.take 7)

/-- Modelled from the spec: `getMonthName` of the missing library —
"monthName(yearMonthKey) -> string: full month name for a YYYY-MM key"
(spec section 4.1).  Reads the two month digits of the key. -/
def getMonthName (key : String) : String :=
  match key.data.drop 5 with
  | [c1, c0] => FULL_MONTH_NAMES.getD ((c1.toNat - 48) * 10 + (c0.toNat - 48) - 1) ("")
  | _ => ""

/-! ## The grid cells and period enumerations of `StreakGrid.tsx` -/

/-- The data of one rendered cell: the `date`, `isVisited` and `isFuture`
props computed by the grid components. -/
structure DayCell where
  date : Date
  isVisited : Bool
  isFuture : Bool
  deriving DecidableEq, Repr

/-- The cell built for date `d`: `isVisited={hasVisit(visits, day)}`,
`isFuture={isFutureDate(day)}`; `tCheck` is the wall-clock read inside
`isFutureDate`. -/
def mkDayCell (tCheck : Date) (visits : List String) (d : Date) : DayCell :=
  { date := d
    isVisited := hasVisit visits (formatDate d)
    isFuture := isFutureDate tCheck (formatDate d) }

/-- The three mutually exclusive visual states of the cell-rendering ternary
`isFuture ? futureStyle : isVisited ? visitedStyle : defaultStyle`. -/
inductive CellStyle where
  | future
  | visited
  | unvisited
  deriving DecidableEq, Repr

/-- The style selected for a cell by the rendering ternary of `DayCell` /
`WeekGrid` / `MonthGrid` / `YearGrid`. -/
def cellStyle (c : DayCell) : CellStyle :=
  if c.isFuture then .future else if c.isVisited then .visited else .unvisited

/-- `getFullWeekDays` of `StreakGrid.tsx`.  The source computes a
non-positive `mondayOffset` (`dayOfWeek === 0 ? -6 : 1 - dayOfWeek`) and
applies it with `setDate`; this is modelled as stepping `back` days
backwards. -/
def getFullWeekDays (days : List Date) : List (Option Date) :=
  match days with
  | [] => List.replicate 7 none
  | firstDay :: _ =>
    let dayOfWeek := jsGetDay firstDay
    let back := if dayOfWeek = 0 then 6 else dayOfWeek - 1
    let monday := subDays firstDay back
    (List.range 7).map (fun i => some (addDays monday i))

/-- `getFullMonthDays` of `StreakGrid.tsx`; `tEnum` models its `new Date()`
read.  `new Date(year, month + 1, 0).getDate()` is the number of days of the
current month, and `new Date(year, month, day)` is the date with that day
component. -/
def getFullMonthDays (tEnum : Date) : List Date :=
  let lastDay := daysInMonth tEnum.year tEnum.month
  (List.range lastDay).map (fun i => ⟨tEnum.year, tEnum.month, i + 1⟩)

/-- The `while (currentDate <= endDate)` loop of `getFullYearDays`; the
timestamp comparison of two midnight dates is day-number order.  The fuel
only bounds the iteration count and exceeds the length of any year. -/
def dateLoop : Nat → Date → Date → List Date
  | 0, _, _ => []
  | fuel + 1, c, e =>
    if toDayNumber c ≤ toDayNumber e then c :: dateLoop fuel (nextDay c) e
    else []

/-- `getFullYearDays` of `StreakGrid.tsx`: all days from Jan 1 to Dec 31 of
the current year; `tEnum` models its `new Date()` read. -/
def getFullYearDays (tEnum : Date) : List Date :=
  dateLoop 400 ⟨tEnum.year, 1, 1⟩ ⟨tEnum.year, 12, 31⟩

/-! ## Week-column grouping (the loop shared verbatim by `MonthGrid` and
`YearGrid`) -/

/-- A fresh column: `new Array(7).fill(null)`. -/
def emptyWeek : List (Option Date) := List.replicate 7 none

/-- One iteration of the grouping loop: place the day at its Monday-based
weekday row, and close the column after a Sunday. -/
def weekStep (acc : List (List (Option Date)) × List (Option Date))
    (day : Date) : List (List (Option Date)) × List (Option Date) :=
  let w := acc.2.set (getDayOfWeek day) (some day)
  if getDayOfWeek day = 6 then (acc.1 ++ [w], emptyWeek) else (acc.1, w)

/-- The grouping loop of `MonthGrid` (lines 186-204) and `YearGrid`
(lines 285-307), including the final push of a partial column that
contains at least one day. -/
def groupIntoWeeks (days : List Date) : List (List (Option Date)) :=
  let p := days.foldl weekStep ([], emptyWeek)
  if p.2.any Option.isSome then p.1 ++ [p.2] else p.1

/-- The month-label loop of `YearGrid` (lines 309-326), processing the
columns in order while tracking `lastMonth`. -/
def monthLabelsLoop : List (List (Option Date)) → String → List String
  | [], _ => []
  | w :: ws, lastMonth =>
    match w.findSome? id with
    | some d =>
      if monthKey d ≠ lastMonth then
        getMonthName (monthKey d) :: monthLabelsLoop ws (monthKey d)
      else
        "" :: monthLabelsLoop ws lastMonth
    | none => "" :: monthLabelsLoop ws lastMonth

/-- The month labels of the year grid, starting with `lastMonth = ''`. -/
def monthLabels (weeks : List (List (Option Date))) : List String :=
  monthLabelsLoop weeks ("")

/-! ## The three grid components (their computed data) -/

/-- The date columns of the month grid. -/
def monthDateWeeks (tEnum : Date) : List (List (Option Date)) :=
  groupIntoWeeks (getFullMonthDays tEnum)

/-- The date columns of the year grid. -/
def yearDateWeeks (tEnum : Date) : List (List (Option Date)) :=
  groupIntoWeeks (getFullYearDays tEnum)

/-- Cells of grouped columns: each non-null date becomes its `DayCell`. -/
def cellWeeks (tCheck : Date) (visits : List String)
    (ws : List (List (Option Date))) : List (List (Option DayCell)) :=
  ws.map (fun w => w.map (fun od => od.map (mkDayCell tCheck visits)))

/-- The data computed by the `MonthGrid` component.  The component reads the
wall clock several times: `tEnum` stands for the reads backing the title and
the day range, `tCheck` for the read inside each `isFutureDate` call.  The
`days` prop is received (`{ visits }: { visits; days }`) but not used. -/
def MonthGrid (tEnum tCheck : Date) (visits : List String)
    (days : List Date) : String × List (List (Option DayCell)) :=
  (FULL_MONTH_NAMES.getD (tEnum.month - 1) (""),
   cellWeeks tCheck visits (monthDateWeeks tEnum))

/-- The data computed by the `YearGrid` component: year title, month labels
and cell columns.  As in `MonthGrid`, the `days` prop is unused. -/
def YearGrid (tEnum tCheck : Date) (visits : List String)
    (days : List Date) : Nat × List String × List (List (Option DayCell)) :=
  (tEnum.year, monthLabels (yearDateWeeks tEnum),
   cellWeeks tCheck visits (yearDateWeeks tEnum))

/-- The data computed by the `WeekGrid` component: one row of seven optional
cells built from `getFullWeekDays(days)`. -/
def WeekGrid (tCheck : Date) (visits : List String)
    (days : List Date) : List (Option DayCell) :=
  (getFullWeekDays days).map (fun od => od.map (mkDayCell tCheck visits))

/-- Modelled from the spec: design note 9 — the month-grid composition with a
single reference date "sampled once per top-level invocation" and "threaded
through all calculator/composer calls". -/
def specMonthGrid (refDate : Date) (visits : List String)
    (days : List Date) : String × List (List (Option DayCell)) :=
  (FULL_MONTH_NAMES.getD (refDate.month - 1) (""),
   cellWeeks refDate visits (monthDateWeeks refDate))

/-- Modelled from the spec: design note 9 — the year-grid composition with a
single reference date. -/
def specYearGrid (refDate : Date) (visits : List String)
    (days : List Date) : Nat × List String × List (List (Option DayCell)) :=
  (refDate.year, monthLabels (yearDateWeeks refDate),
   cellWeeks refDate visits (yearDateWeeks refDate))

/-! ## Sanity anchors for the weekday and formatting model -/

theorem getDayOfWeek_anchor_2024_01_01 : getDayOfWeek ⟨2024, 1, 1⟩ = 0 := by decide

theorem jsGetDay_anchor_epoch : jsGetDay ⟨1970, 1, 1⟩ = 4 := by decide

theorem formatDate_anchor : formatDate ⟨2024, 3, 10⟩ = "2024-03-10" := by decide

theorem daysInMonth_leap_february : daysInMonth 2024 2 = 29 := by decide

/-! ## Consecutive runs of days -/

/-- The list `[start, start+1, …, start+(n-1)]` of consecutive dates. -/
def dayRun (start : Date) (n : Nat) : List Date :=
  (List.range n).map (addDays start)

theorem dayRun_succ (start : Date) (n : Nat) :
    dayRun start (n + 1) = dayRun start n ++ [addDays start n] := by
  simp [dayRun, List.range_succ]

theorem dayRun_succ_left (start : Date) (n : Nat) :
    dayRun start (n + 1) = start :: dayRun (nextDay start) n := by
  unfold dayRun
  rw [List.range_succ_eq_map, List.map_cons, List.map_map]
  refine congrArg (addDays start 0 :: ·) (List.map_congr_left fun i _ => ?_)
  rfl

theorem addDays_within_month (y m a i : Nat) (ha : 1 ≤ a)
    (h : a + i ≤ daysInMonth y m) :
    addDays ⟨y, m, a⟩ i = ⟨y, m, a + i⟩ := by
  induction i generalizing a with
  | zero => rfl
  | succ i ih =>
    show addDays (nextDay ⟨y, m, a⟩) i = _
    have hlt : a < daysInMonth y m := by omega
    have hnext : nextDay ⟨y, m, a⟩ = ⟨y, m, a + 1⟩ := by
      unfold nextDay
      simp only
      rw [if_pos hlt]
    rw [hnext, ih (a + 1) (by omega) (by omega)]
    have : a + 1 + i = a + (i + 1) := by omega
    rw [this]

theorem getFullMonthDays_eq_dayRun (t : Date) :
    getFullMonthDays t
      = dayRun ⟨t.year, t.month, 1⟩ (daysInMonth t.year t.month) := by
  unfold getFullMonthDays dayRun
  refine List.map_congr_left fun i hi => ?_
  rw [List.mem_range] at hi
  rw [addDays_within_month t.year t.month 1 i (by omega) (by omega)]
  simp [Nat.add_comm]

theorem dateLoop_eq_dayRun (fuel : Nat) :
    ∀ c e : Date, ValidDate c → toDayNumber e < toDayNumber c + fuel →
      dateLoop fuel c e = dayRun c (toDayNumber e + 1 - toDayNumber c) := by
  induction fuel with
  | zero =>
    intro c e _ hfuel
    have : toDayNumber e + 1 - toDayNumber c = 0 := by omega
    rw [this]
    rfl
  | succ fuel ih =>
    intro c e hv hfuel
    unfold dateLoop
    split
    · next hle =>
      obtain ⟨hv', hN'⟩ := toDayNumber_nextDay c hv
      rw [ih (nextDay c) e hv' (by omega)]
      have h1 : toDayNumber e + 1 - toDayNumber c
          = (toDayNumber e + 1 - toDayNumber (nextDay c)) + 1 := by omega
      rw [h1, dayRun_succ_left]
    · next hgt =>
      have : toDayNumber e + 1 - toDayNumber c = 0 := by omega
      rw [this]
      rfl

theorem jan1_valid (y : Nat) (hy : 1 ≤ y) : ValidDate ⟨y, 1, 1⟩ :=
  (validDate_mk _ _ _).mpr ⟨hy, by omega, by omega, by omega, daysInMonth_pos _ _⟩

theorem toDayNumber_jan1 (y : Nat) : toDayNumber ⟨y, 1, 1⟩ = daysBeforeYear y := by
  rw [toDayNumber_mk]
  have : daysBeforeMonth y 1 = 0 := rfl
  omega

theorem toDayNumber_dec31 (y : Nat) :
    toDayNumber ⟨y, 12, 31⟩ = daysBeforeYear y + daysInYear y - 1 := by
  rw [toDayNumber_mk]
  have := daysBeforeMonth_12 y
  omega

theorem daysInYear_le (y : Nat) : daysInYear y ≤ 366 := by
  unfold daysInYear
  split <;> omega

theorem daysInYear_pos (y : Nat) : 1 ≤ daysInYear y := by
  unfold daysInYear
  split <;> omega

theorem getFullYearDays_eq_dayRun (t : Date) (hy : 1 ≤ t.year) :
    getFullYearDays t = dayRun ⟨t.year, 1, 1⟩ (daysInYear t.year) := by
  unfold getFullYearDays
  have hjan := jan1_valid t.year hy
  have hN1 := toDayNumber_jan1 t.year
  have hN2 := toDayNumber_dec31 t.year
  have hle := daysInYear_le t.year
  have hpos := daysInYear_pos t.year
  rw [dateLoop_eq_dayRun 400 _ _ hjan (by omega)]
  congr 1
  omega

/-! ## Provenance of grouped cells -/

theorem weekStep_fold_inv (P : Date → Prop) (l : List Date) :
    ∀ acc : List (List (Option Date)) × List (Option Date),
      (∀ w ∈ acc.1, ∀ d : Date, some d ∈ w → P d) →
      (∀ d : Date, some d ∈ acc.2 → P d) →
      (∀ d ∈ l, P d) →
      (∀ w ∈ (l.foldl weekStep acc).1, ∀ d : Date, some d ∈ w → P d) ∧
      (∀ d : Date, some d ∈ (l.foldl weekStep acc).2 → P d) := by
  induction l with
  | nil => exact fun acc h1 h2 _ => ⟨h1, h2⟩
  | cons a l ih =>
    intro acc h1 h2 hl
    rw [List.foldl_cons]
    have hset : ∀ d : Date, some d ∈ acc.2.set (getDayOfWeek a) (some a) → P d := by
      intro d hd
      rcases List.mem_or_eq_of_mem_set hd with hmem | heq
      · exact h2 d hmem
      · cases heq
        exact hl a (List.mem_cons_self a l)
    have hstep1 : ∀ w ∈ (weekStep acc a).1, ∀ d : Date, some d ∈ w → P d := by
      intro w hw
      unfold weekStep at hw
      split at hw
      · simp only at hw
        rcases List.mem_append.mp hw with hold | hnew
        · exact h1 w hold
        · rw [List.mem_singleton] at hnew
          subst hnew
          exact hset
      · exact h1 w hw
    have hstep2 : ∀ d : Date, some d ∈ (weekStep acc a).2 → P d := by
      intro d hd
      unfold weekStep at hd
      split at hd
      · simp only at hd
        rw [emptyWeek, List.mem_replicate] at hd
        exact absurd hd.2 (by simp)
      · exact hset d hd
    exact ih (weekStep acc a) hstep1 hstep2 (fun d hd => hl d (List.mem_cons_of_mem a hd))

theorem groupIntoWeeks_mem (P : Date → Prop) (l : List Date)
    (hl : ∀ d ∈ l, P d) :
    ∀ w ∈ groupIntoWeeks l, ∀ d : Date, some d ∈ w → P d := by
  intro w hw
  simp only [groupIntoWeeks] at hw
  have hbase1 : ∀ w ∈ (([], emptyWeek) :
      List (List (Option Date)) × List (Option Date)).1, ∀ d : Date, some d ∈ w → P d := by
    intro w hw
    exact absurd hw (List.not_mem_nil w)
  have hbase2 : ∀ d : Date, some d ∈ (([], emptyWeek) :
      List (List (Option Date)) × List (Option Date)).2 → P d := by
    intro d hd
    rw [emptyWeek, List.mem_replicate] at hd
    exact absurd hd.2 (by simp)
  obtain ⟨h1, h2⟩ := weekStep_fold_inv P l ([], emptyWeek) hbase1 hbase2 hl
  split at hw
  · rcases List.mem_append.mp hw with hold | hnew
    · exact h1 w hold
    · rw [List.mem_singleton] at hnew
      subst hnew
      exact h2
  · exact h1 w hw

theorem cellWeeks_cell_mem {t : Date} {v : List String}
    {ws : List (List (Option Date))} {w : List (Option DayCell)} {c : DayCell}
    (hw : w ∈ cellWeeks t v ws) (hc : some c ∈ w) :
    ∃ w0 ∈ ws, some c.date ∈ w0 ∧ c = mkDayCell t v c.date := by
  unfold cellWeeks at hw
  obtain ⟨w0, hw0, rfl⟩ := List.mem_map.mp hw
  obtain ⟨od, hod, hmap⟩ := List.mem_map.mp hc
  cases od with
  | none => exact absurd hmap (by simp)
  | some d =>
    have hdc : mkDayCell t v d = c := by
      have h' : some (mkDayCell t v d) = some c := hmap
      injection h'
    subst hdc
    exact ⟨w0, hw0, hod, rfl⟩

theorem dayRun_mem_spec {start : Date} (hv : ValidDate start) {n : Nat}
    {d : Date} (hd : d ∈ dayRun start n) :
    ∃ t, t < n ∧ d = addDays start t ∧ ValidDate d ∧
      toDayNumber d = toDayNumber start + t := by
  obtain ⟨t, ht, rfl⟩ := List.mem_map.mp hd
  rw [List.mem_range] at ht
  obtain ⟨hva, hNa⟩ := toDayNumber_addDays start hv t
  exact ⟨t, ht, rfl, hva, hNa⟩

/-- C6: in the month and year grids, every non-null cell's date lies within
the period's bounds — for the month grid between day 1 and the last day of
the current month, and for the year grid between January 1 and December 31
of the current year. -/
theorem claimC6_cells_within_period (now : Date) (visits : List String)
    (days : List Date) (hv : ValidDate now) :
    (∀ w ∈ (MonthGrid now now visits days).2, ∀ c : DayCell, some c ∈ w →
      c.date.year = now.year ∧ c.date.month = now.month ∧
      1 ≤ c.date.day ∧ c.date.day ≤ daysInMonth now.year now.month) ∧
    (∀ w ∈ (YearGrid now now visits days).2.2, ∀ c : DayCell, some c ∈ w →
      ValidDate c.date ∧ c.date.year = now.year ∧
      toDayNumber ⟨now.year, 1, 1⟩ ≤ toDayNumber c.date ∧
      toDayNumber c.date ≤ toDayNumber ⟨now.year, 12, 31⟩) := by
  obtain ⟨hy, hm1, hm2, _, _⟩ := hv
  constructor
  · intro w hw c hc
    obtain ⟨w0, hw0, hd0, _⟩ := cellWeeks_cell_mem hw hc
    refine groupIntoWeeks_mem
      (fun d => d.year = now.year ∧ d.month = now.month ∧
        1 ≤ d.day ∧ d.day ≤ daysInMonth now.year now.month)
      (getFullMonthDays now) ?_ w0 hw0 c.date hd0
    intro d hd
    obtain ⟨i, hi, rfl⟩ := List.mem_map.mp hd
    rw [List.mem_range] at hi
    exact ⟨rfl, rfl, by show 1 ≤ i + 1; omega,
      by show i + 1 ≤ daysInMonth now.year now.month; omega⟩
  · intro w hw c hc
    obtain ⟨w0, hw0, hd0, _⟩ := cellWeeks_cell_mem hw hc
    refine groupIntoWeeks_mem
      (fun d => ValidDate d ∧ d.year = now.year ∧
        toDayNumber ⟨now.year, 1, 1⟩ ≤ toDayNumber d ∧
        toDayNumber d ≤ toDayNumber ⟨now.year, 12, 31⟩)
      (getFullYearDays now) ?_ w0 hw0 c.date hd0
    intro d hd
    rw [getFullYearDays_eq_dayRun now hy] at hd
    obtain ⟨t, ht, _, hvd, hNd⟩ := dayRun_mem_spec (jan1_valid now.year hy) hd
    have hN1 := toDayNumber_jan1 now.year
    have hN2 := toDayNumber_dec31 now.year
    have hstep := daysBeforeYear_succ now.year hy
    refine ⟨hvd, ?_, by omega, by omega⟩
    exact year_eq_of_dayNumber_bounds d hvd now.year (by omega) (by omega)

/-- C6 witness at a concrete date. -/
theorem claimC6_witness :
    ValidDate ⟨2024, 3, 10⟩ ∧
    ((∀ w ∈ (MonthGrid ⟨2024, 3, 10⟩ ⟨2024, 3, 10⟩ [] []).2, ∀ c : DayCell,
        some c ∈ w →
        c.date.year = (⟨2024, 3, 10⟩ : Date).year ∧
        c.date.month = (⟨2024, 3, 10⟩ : Date).month ∧
        1 ≤ c.date.day ∧
        c.date.day ≤ daysInMonth (⟨2024, 3, 10⟩ : Date).year
          (⟨2024, 3, 10⟩ : Date).month) ∧
      (∀ w ∈ (YearGrid ⟨2024, 3, 10⟩ ⟨2024, 3, 10⟩ [] []).2.2, ∀ c : DayCell,
        some c ∈ w →
        ValidDate c.date ∧ c.date.year = (⟨2024, 3, 10⟩ : Date).year ∧
        toDayNumber ⟨(⟨2024, 3, 10⟩ : Date).year, 1, 1⟩ ≤ toDayNumber c.date ∧
        toDayNumber c.date ≤ toDayNumber ⟨(⟨2024, 3, 10⟩ : Date).year, 12, 31⟩)) :=
  ⟨by decide, claimC6_cells_within_period ⟨2024, 3, 10⟩ [] [] (by decide)⟩

/-- C9: an empty period-days list makes `getFullWeekDays` return an all-null
placeholder row of length exactly 7 (and the week grid renders seven empty
slots) instead of raising an error. -/
theorem claimC9_empty_days_placeholder :
    getFullWeekDays ([] : List Date) = List.replicate 7 none ∧
    (getFullWeekDays ([] : List Date)).length = 7 ∧
    ∀ (tCheck : Date) (visits : List String),
      WeekGrid tCheck visits [] = List.replicate 7 none :=
  ⟨rfl, rfl, fun _ _ => rfl⟩

/-- C10: the month and year grids do not depend on the `days` prop passed
down by `StreakGrid` — their day range is recomputed from the wall-clock
reads, and the `days` argument is ignored. -/
theorem claimC10_days_independent (tEnum tCheck : Date) (visits : List String)
    (days1 days2 : List Date) :
    MonthGrid tEnum tCheck visits days1 = MonthGrid tEnum tCheck visits days2 ∧
    YearGrid tEnum tCheck visits days1 = YearGrid tEnum tCheck visits days2 :=
  ⟨rfl, rfl⟩

/-- C3: for a non-empty days list, `getFullWeekDays` returns exactly 7
entries, all non-null, holding consecutive calendar dates in Monday-to-Sunday
order; the first is the Monday of the week containing the first day. -/
theorem claimC3_week_window (d0 : Date) (rest : List Date)
    (hv : ValidDate d0) (hy : 2 ≤ d0.year) :
    (getFullWeekDays (d0 :: rest)).length = 7 ∧
    ∀ i, i < 7 → ∃ di : Date,
      (getFullWeekDays (d0 :: rest))[i]? = some (some di) ∧
      ValidDate di ∧
      toDayNumber di = (toDayNumber d0 - toDayNumber d0 % 7) + i ∧
      getDayOfWeek di = i := by
  have h365 : 365 ≤ toDayNumber d0 := by
    have h1 := (toDayNumber_year_bounds d0 hv).1
    have h2 := daysBeforeYear_mono hy
    have h3 : daysBeforeYear 2 = 365 := by decide
    omega
  simp only [getFullWeekDays]
  set N := toDayNumber d0 with hN
  have hback : (if jsGetDay d0 = 0 then 6 else jsGetDay d0 - 1) = N % 7 := by
    unfold jsGetDay
    rw [← hN]
    split <;> omega
  rw [hback]
  obtain ⟨hvm, hNm⟩ := toDayNumber_subDays d0 hv (N % 7) (by omega)
  constructor
  · simp
  · intro i hi
    obtain ⟨hvi, hNi⟩ := toDayNumber_addDays (subDays d0 (N % 7)) hvm i
    refine ⟨addDays (subDays d0 (N % 7)) i, ?_, hvi, by omega, ?_⟩
    · rw [List.getElem?_map, List.getElem?_range hi]
      rfl
    · unfold getDayOfWeek
      omega

/-- C3 witness at a concrete date (2024-03-10, a Sunday). -/
theorem claimC3_witness :
    ValidDate ⟨2024, 3, 10⟩ ∧ 2 ≤ (⟨2024, 3, 10⟩ : Date).year ∧
    ((getFullWeekDays [⟨2024, 3, 10⟩]).length = 7 ∧
      ∀ i, i < 7 → ∃ di : Date,
        (getFullWeekDays [(⟨2024, 3, 10⟩ : Date)])[i]? = some (some di) ∧
        ValidDate di ∧
        toDayNumber di
          = (toDayNumber ⟨2024, 3, 10⟩ - toDayNumber ⟨2024, 3, 10⟩ % 7) + i ∧
        getDayOfWeek di = i) :=
  ⟨by decide, by decide, claimC3_week_window ⟨2024, 3, 10⟩ [] (by decide) (by decide)⟩

/-! ## Exact shape of the grouped week-columns on a consecutive run -/

/-- The `j`-th week-column produced after placing the days of slots
`[getDayOfWeek start, m)`: row `i` holds the day of absolute slot `7*j + i`
when that slot is occupied, `null` otherwise. -/
def colFun (start : Date) (m j : Nat) : List (Option Date) :=
  (List.range 7).map (fun i =>
    if getDayOfWeek start ≤ 7 * j + i ∧ 7 * j + i < m then
      some (addDays start (7 * j + i - getDayOfWeek start))
    else none)

theorem colFun_length (start : Date) (m j : Nat) : (colFun start m j).length = 7 := by
  simp [colFun]

theorem colFun_ext_congr (start : Date) (m j : Nat) (h : 7 * j + 7 ≤ m) :
    colFun start m j = colFun start (m + 1) j := by
  refine List.ext_getElem (by simp [colFun]) ?_
  intro i h1 h2
  have hi : i < 7 := by simpa [colFun] using h1
  simp only [colFun, List.getElem_map, List.getElem_range]
  have hlt : 7 * j + i < m := by omega
  by_cases hw : getDayOfWeek start ≤ 7 * j + i
  · rw [if_pos ⟨hw, hlt⟩, if_pos ⟨hw, by omega⟩]
  · rw [if_neg (fun hc => hw hc.1), if_neg (fun hc => hw hc.1)]

theorem colFun_empty (start : Date) (m j : Nat)
    (h : m ≤ 7 * j ∨ m ≤ getDayOfWeek start) :
    colFun start m j = emptyWeek := by
  refine List.ext_getElem (by simp [colFun, emptyWeek]) ?_
  intro i h1 h2
  have hi : i < 7 := by simpa [colFun] using h1
  simp only [colFun, List.getElem_map, List.getElem_range, emptyWeek,
    List.getElem_replicate]
  rw [if_neg]
  rintro ⟨hc1, hc2⟩
  rcases h with h | h <;> omega

theorem colFun_set (start : Date) (hv : ValidDate start) (n : Nat) :
    (colFun start (getDayOfWeek start + n) ((getDayOfWeek start + n) / 7)).set
        ((getDayOfWeek start + n) % 7) (some (addDays start n))
      = colFun start (getDayOfWeek start + n + 1) ((getDayOfWeek start + n) / 7) := by
  have hw0 : getDayOfWeek start < 7 := Nat.mod_lt _ (by omega)
  refine List.ext_getElem (by simp [colFun]) ?_
  intro i h1 h2
  have hi : i < 7 := by simpa [colFun] using h2
  rw [List.getElem_set]
  by_cases hir : (getDayOfWeek start + n) % 7 = i
  · rw [if_pos hir]
    simp only [colFun, List.getElem_map, List.getElem_range]
    rw [if_pos (by constructor <;> omega)]
    have harg : 7 * ((getDayOfWeek start + n) / 7) + i - getDayOfWeek start = n := by
      omega
    rw [harg]
  · rw [if_neg hir]
    simp only [colFun, List.getElem_map, List.getElem_range]
    by_cases hcond : getDayOfWeek start ≤ 7 * ((getDayOfWeek start + n) / 7) + i ∧
        7 * ((getDayOfWeek start + n) / 7) + i < getDayOfWeek start + n
    · rw [if_pos hcond, if_pos ⟨hcond.1, by omega⟩]
    · rw [if_neg hcond, if_neg ?hne]
      case hne =>
        rintro ⟨hc1, hc2⟩
        exact hcond ⟨hc1, by omega⟩

theorem weekLoop_run (start : Date) (hv : ValidDate start) (n : Nat) :
    (dayRun start n).foldl weekStep ([], emptyWeek)
      = ((List.range ((getDayOfWeek start + n) / 7)).map
          (fun j => colFun start (getDayOfWeek start + n) j),
         colFun start (getDayOfWeek start + n) ((getDayOfWeek start + n) / 7)) := by
  have hw0 : getDayOfWeek start < 7 := Nat.mod_lt _ (by omega)
  induction n with
  | zero =>
    have hq : (getDayOfWeek start + 0) / 7 = 0 := by omega
    rw [hq]
    show ([], emptyWeek) = _
    refine Prod.ext ?_ ?_
    · simp
    · simp only
      exact (colFun_empty start _ 0 (Or.inr (by omega))).symm
  | succ n ih =>
    rw [dayRun_succ, List.foldl_append, ih]
    have hdow : getDayOfWeek (addDays start n) = (getDayOfWeek start + n) % 7 := by
      have hN := (toDayNumber_addDays start hv n).2
      unfold getDayOfWeek
      omega
    show weekStep _ (addDays start n) = _
    unfold weekStep
    simp only [hdow]
    rw [colFun_set start hv n]
    have hsucc : getDayOfWeek start + (n + 1) = getDayOfWeek start + n + 1 := rfl
    by_cases hr : (getDayOfWeek start + n) % 7 = 6
    · rw [if_pos hr]
      have hq1 : (getDayOfWeek start + (n + 1)) / 7
          = (getDayOfWeek start + n) / 7 + 1 := by omega
      refine Prod.ext ?_ ?_
      · simp only
        rw [hq1, List.range_succ, List.map_append]
        congr 1
        refine List.map_congr_left fun j hj => ?_
        rw [List.mem_range] at hj
        rw [hsucc]
        exact colFun_ext_congr start (getDayOfWeek start + n) j (by omega)
      · simp only
        rw [hq1, hsucc]
        exact (colFun_empty start _ _ (Or.inl (by omega))).symm
    · rw [if_neg hr]
      have hq1 : (getDayOfWeek start + (n + 1)) / 7 = (getDayOfWeek start + n) / 7 := by
        omega
      refine Prod.ext ?_ ?_
      · simp only
        rw [hq1]
        refine List.map_congr_left fun j hj => ?_
        rw [List.mem_range] at hj
        rw [hsucc]
        exact colFun_ext_congr start (getDayOfWeek start + n) j (by omega)
      · simp only
        rw [hq1, hsucc]

theorem groupIntoWeeks_dayRun (start : Date) (hv : ValidDate start) (n : Nat)
    (hn : 1 ≤ n) :
    groupIntoWeeks (dayRun start n)
      = (List.range ((getDayOfWeek start + n + 6) / 7)).map
          (fun j => colFun start (getDayOfWeek start + n) j) := by
  have hw0 : getDayOfWeek start < 7 := Nat.mod_lt _ (by omega)
  simp only [groupIntoWeeks]
  rw [weekLoop_run start hv n]
  simp only
  by_cases hr : (getDayOfWeek start + n) % 7 = 0
  · rw [if_neg ?hany]
    case hany =>
      intro hany
      rw [List.any_eq_true] at hany
      obtain ⟨x, hx, hsome⟩ := hany
      simp only [colFun, List.mem_map, List.mem_range] at hx
      obtain ⟨i, hi, rfl⟩ := hx
      rw [if_neg (by rintro ⟨hc1, hc2⟩; omega)] at hsome
      exact absurd hsome (by simp)
    have : (getDayOfWeek start + n + 6) / 7 = (getDayOfWeek start + n) / 7 := by omega
    rw [this]
  · rw [if_pos ?hany]
    case hany =>
      rw [List.any_eq_true]
      refine ⟨some (addDays start (n - 1)), ?_, rfl⟩
      simp only [colFun, List.mem_map, List.mem_range]
      refine ⟨(getDayOfWeek start + n) % 7 - 1, by omega, ?_⟩
      rw [if_pos (by constructor <;> omega)]
      have harg : 7 * ((getDayOfWeek start + n) / 7)
          + ((getDayOfWeek start + n) % 7 - 1) - getDayOfWeek start = n - 1 := by
        omega
      rw [harg]
    have : (getDayOfWeek start + n + 6) / 7 = (getDayOfWeek start + n) / 7 + 1 := by
      omega
    rw [this, List.range_succ, List.map_append]
    rfl

theorem getDayOfWeek_addDays (start : Date) (hv : ValidDate start) (t : Nat) :
    getDayOfWeek (addDays start t) = (getDayOfWeek start + t) % 7 := by
  have hN := (toDayNumber_addDays start hv t).2
  unfold getDayOfWeek
  omega

/-- The column structure claimed for the month and year grids: one column per
seven-day slot block; day `t` sits in column `(w0 + t) / 7` at its weekday
row; a new column starts exactly after a Sunday; the first column is null
before row `w0` (the first day's weekday); every emitted column holds at
least one real day. -/
def weekColumnsSpec (start : Date) (n : Nat)
    (weeks : List (List (Option Date))) : Prop :=
  weeks.length = (getDayOfWeek start + n + 6) / 7 ∧
  (∀ t, t < n →
    ∃ w, weeks[(getDayOfWeek start + t) / 7]? = some w ∧
      w[getDayOfWeek (addDays start t)]? = some (some (addDays start t))) ∧
  (∀ t, t + 1 < n →
    ((getDayOfWeek start + (t + 1)) / 7 = (getDayOfWeek start + t) / 7 + 1 ↔
      getDayOfWeek (addDays start t) = 6)) ∧
  (∀ i, i < getDayOfWeek start → ∃ w, weeks[0]? = some w ∧ w[i]? = some none) ∧
  (∀ w ∈ weeks, w.any Option.isSome = true)

theorem weekColumnsSpec_groupIntoWeeks (start : Date) (hv : ValidDate start)
    (n : Nat) (hn : 1 ≤ n) :
    weekColumnsSpec start n (groupIntoWeeks (dayRun start n)) := by
  have hw0 : getDayOfWeek start < 7 := Nat.mod_lt _ (by omega)
  rw [groupIntoWeeks_dayRun start hv n hn]
  refine ⟨by simp, ?_, ?_, ?_, ?_⟩
  · intro t ht
    rw [getDayOfWeek_addDays start hv t]
    refine ⟨colFun start (getDayOfWeek start + n) ((getDayOfWeek start + t) / 7),
      ?_, ?_⟩
    · rw [List.getElem?_map, List.getElem?_range (by omega :
        (getDayOfWeek start + t) / 7 < (getDayOfWeek start + n + 6) / 7)]
      rfl
    · simp only [colFun]
      rw [List.getElem?_map, List.getElem?_range (by omega :
        (getDayOfWeek start + t) % 7 < 7)]
      have hcond : getDayOfWeek start ≤
            7 * ((getDayOfWeek start + t) / 7) + (getDayOfWeek start + t) % 7 ∧
          7 * ((getDayOfWeek start + t) / 7) + (getDayOfWeek start + t) % 7 <
            getDayOfWeek start + n := by
        constructor <;> omega
      rw [Option.map_some', if_pos hcond]
      have harg : 7 * ((getDayOfWeek start + t) / 7) + (getDayOfWeek start + t) % 7
          - getDayOfWeek start = t := by omega
      rw [harg]
  · intro t ht
    rw [getDayOfWeek_addDays start hv t]
    omega
  · intro i hi
    refine ⟨colFun start (getDayOfWeek start + n) 0, ?_, ?_⟩
    · rw [List.getElem?_map, List.getElem?_range (by omega :
        0 < (getDayOfWeek start + n + 6) / 7)]
      rfl
    · simp only [colFun]
      rw [List.getElem?_map, List.getElem?_range (by omega : i < 7),
        Option.map_some', if_neg (by rintro ⟨hc, _⟩; omega)]
  · intro w hw
    obtain ⟨j, hj, rfl⟩ := List.mem_map.mp hw
    rw [List.mem_range] at hj
    rw [List.any_eq_true]
    refine ⟨some (addDays start
        (max (getDayOfWeek start) (7 * j) - getDayOfWeek start)), ?_, rfl⟩
    simp only [colFun, List.mem_map, List.mem_range]
    refine ⟨max (getDayOfWeek start) (7 * j) - 7 * j, by omega, ?_⟩
    rw [if_pos ⟨by omega, by omega⟩]
    have harg : 7 * j + (max (getDayOfWeek start) (7 * j) - 7 * j)
        - getDayOfWeek start
        = max (getDayOfWeek start) (7 * j) - getDayOfWeek start := by omega
    rw [harg]

/-- C4: in month (and year) grid composition, a column is closed and a new
one started exactly after a day with Monday-based weekday index 6; the first
column is null at every row before the first day's weekday index; and a
column — in particular the trailing partial one — is emitted exactly when it
contains at least one real day. -/
theorem claimC4_column_breaks (now : Date) (hv : ValidDate now) :
    weekColumnsSpec ⟨now.year, now.month, 1⟩ (daysInMonth now.year now.month)
      (monthDateWeeks now) ∧
    weekColumnsSpec ⟨now.year, 1, 1⟩ (daysInYear now.year) (yearDateWeeks now) := by
  obtain ⟨hy, hm1, hm2, _, _⟩ := hv
  constructor
  · have hvs : ValidDate ⟨now.year, now.month, 1⟩ :=
      (validDate_mk _ _ _).mpr ⟨hy, hm1, hm2, by omega, daysInMonth_pos _ _⟩
    unfold monthDateWeeks
    rw [getFullMonthDays_eq_dayRun]
    exact weekColumnsSpec_groupIntoWeeks _ hvs _ (daysInMonth_pos _ _)
  · unfold yearDateWeeks
    rw [getFullYearDays_eq_dayRun now hy]
    exact weekColumnsSpec_groupIntoWeeks _ (jan1_valid _ hy) _ (daysInYear_pos _)

/-- C4 witness at a concrete date. -/
theorem claimC4_witness :
    ValidDate ⟨2024, 3, 10⟩ ∧
    (weekColumnsSpec ⟨(2024 : Nat), 3, 1⟩ (daysInMonth 2024 3)
        (monthDateWeeks ⟨2024, 3, 10⟩) ∧
      weekColumnsSpec ⟨(2024 : Nat), 1, 1⟩ (daysInYear 2024)
        (yearDateWeeks ⟨2024, 3, 10⟩)) :=
  ⟨by decide, claimC4_column_breaks ⟨2024, 3, 10⟩ (by decide)⟩

/-! ## Flattening the columns back into the day run -/

theorem filterMap_id_replicate_none (k : Nat) :
    (List.replicate k (none : Option Date)).filterMap id = [] := by
  induction k with
  | zero => rfl
  | succ k ih => simpa [List.replicate_succ, List.filterMap_cons] using ih

theorem getElem?_replicate_none (m i : Nat) (h : i < m) :
    (List.replicate m (none : Option Date))[i]? = some none := by
  rw [List.getElem?_eq_getElem (by simpa using h)]
  simp

theorem window_map (k lo n : Nat) (f : Nat → Date) (h : lo + n ≤ k) :
    (List.range k).map
        (fun s => if lo ≤ s ∧ s < lo + n then some (f (s - lo)) else none)
      = List.replicate lo (none : Option Date)
        ++ (List.range n).map (fun t => some (f t))
        ++ List.replicate (k - lo - n) (none : Option Date) := by
  refine List.ext_getElem? fun i => ?_
  by_cases hik : i < k
  · rw [List.getElem?_map, List.getElem?_range hik, Option.map_some',
      List.getElem?_append, List.length_append, List.length_replicate,
      List.length_map, List.length_range]
    by_cases hc1 : i < lo
    · rw [if_neg (show ¬ (lo ≤ i ∧ i < lo + n) by omega),
        if_pos (show i < lo + n by omega),
        List.getElem?_append, List.length_replicate,
        if_pos (show i < lo by omega), getElem?_replicate_none lo i hc1]
    · by_cases hc2 : i < lo + n
      · rw [if_pos (show lo ≤ i ∧ i < lo + n from ⟨by omega, hc2⟩),
          if_pos (show i < lo + n by omega),
          List.getElem?_append, List.length_replicate,
          if_neg (show ¬ i < lo by omega),
          List.getElem?_map, List.getElem?_range (show i - lo < n by omega),
          Option.map_some']
      · rw [if_neg (show ¬ (lo ≤ i ∧ i < lo + n) by omega),
          if_neg (show ¬ i < lo + n by omega),
          getElem?_replicate_none _ _ (show i - (lo + n) < k - lo - n by omega)]
  · rw [List.getElem?_eq_none (by simpa using (by omega : k ≤ i)),
      List.getElem?_eq_none (by simp; omega)]

theorem flatten_cols (start : Date) (m q : Nat) :
    ((List.range q).map (fun j => colFun start m j)).flatten
      = (List.range (7 * q)).map (fun s =>
          if getDayOfWeek start ≤ s ∧ s < m then
            some (addDays start (s - getDayOfWeek start))
          else none) := by
  induction q with
  | zero => rfl
  | succ q ih =>
    rw [List.range_succ, List.map_append, List.flatten_append, ih]
    have h7 : 7 * (q + 1) = 7 * q + 7 := by omega
    rw [h7, List.range_add, List.map_append]
    congr 1

theorem flatten_map_filterMap (l : List (List (Option Date))) :
    (l.map (fun w => w.filterMap id)).flatten = l.flatten.filterMap id := by
  induction l with
  | nil => rfl
  | cons w l ih =>
    rw [List.map_cons, List.flatten_cons, List.flatten_cons,
      List.filterMap_append, ih]

theorem filterMap_id_map_some (l : List Nat) (f : Nat → Date) :
    (l.map (fun t => some (f t))).filterMap id = l.map f := by
  induction l with
  | nil => rfl
  | cons a l ih => simp [List.filterMap_cons, ih]

theorem groupIntoWeeks_filter_flatten (start : Date) (hv : ValidDate start)
    (n : Nat) (hn : 1 ≤ n) :
    ((groupIntoWeeks (dayRun start n)).map (fun w => w.filterMap id)).flatten
      = dayRun start n := by
  have hw0 : getDayOfWeek start < 7 := Nat.mod_lt _ (by omega)
  rw [groupIntoWeeks_dayRun start hv n hn, flatten_map_filterMap, flatten_cols]
  rw [window_map (7 * ((getDayOfWeek start + n + 6) / 7)) (getDayOfWeek start) n
    (addDays start) (by omega)]
  rw [List.filterMap_append, List.filterMap_append, filterMap_id_replicate_none,
    filterMap_id_replicate_none, filterMap_id_map_some]
  simp [dayRun]

/-- C5: flattening the month grid's week-columns in order and dropping the
null padding yields exactly the dates of days 1 through the last day of the
current month, each exactly once and in chronological order; the month
length is the true calendar length, leap-year February included. -/
theorem claimC5_month_flatten (now : Date) (hv : ValidDate now) :
    ((monthDateWeeks now).map (fun w => w.filterMap id)).flatten
        = (List.range (daysInMonth now.year now.month)).map
            (fun i => (⟨now.year, now.month, i + 1⟩ : Date)) ∧
    ((monthDateWeeks now).map (fun w => w.filterMap id)).flatten.Nodup ∧
    (∀ y, daysInMonth y 2 = if isLeap y then 29 else 28) := by
  obtain ⟨hy, hm1, hm2, _, _⟩ := hv
  have hvs : ValidDate ⟨now.year, now.month, 1⟩ :=
    (validDate_mk _ _ _).mpr ⟨hy, hm1, hm2, by omega, daysInMonth_pos _ _⟩
  have hflat : ((monthDateWeeks now).map (fun w => w.filterMap id)).flatten
      = (List.range (daysInMonth now.year now.month)).map
          (fun i => (⟨now.year, now.month, i + 1⟩ : Date)) := by
    unfold monthDateWeeks
    rw [getFullMonthDays_eq_dayRun,
      groupIntoWeeks_filter_flatten _ hvs _ (daysInMonth_pos _ _),
      ← getFullMonthDays_eq_dayRun]
    rfl
  refine ⟨hflat, ?_, fun y => rfl⟩
  rw [hflat]
  refine (List.nodup_range _).map ?_
  intro a b hab
  have h3 := (Date.mk.injEq _ _ _ _ _ _).mp hab
  omega

/-- C5 witness at a concrete date. -/
theorem claimC5_witness :
    ValidDate ⟨2024, 3, 10⟩ ∧
    (((monthDateWeeks ⟨2024, 3, 10⟩).map (fun w => w.filterMap id)).flatten
        = (List.range (daysInMonth 2024 3)).map
            (fun i => (⟨(2024 : Nat), 3, i + 1⟩ : Date)) ∧
      ((monthDateWeeks ⟨2024, 3, 10⟩).map (fun w => w.filterMap id)).flatten.Nodup ∧
      (∀ y, daysInMonth y 2 = if isLeap y then 29 else 28)) :=
  ⟨by decide, claimC5_month_flatten ⟨2024, 3, 10⟩ (by decide)⟩

/-! ## The zero-padded format orders strings chronologically -/

theorem padNum_length (k : Nat) : ∀ n, (padNum k n).length = k := by
  induction k with
  | zero => intro n; rfl
  | succ k ih => intro n; simp [padNum, ih]

theorem char_lt_iff_toNat (a b : Char) : a < b ↔ a.toNat < b.toNat := Iff.rfl

theorem char_eq_of_toNat_eq (a b : Char) (h : a.toNat = b.toNat) : a = b := by
  apply Char.eq_of_val_eq
  apply UInt32.eq_of_toBitVec_eq
  apply BitVec.eq_of_toNat_eq
  exact h

theorem charList_nil_not_lt : ¬ List.lt ([] : List Char) [] := fun h => nomatch h

theorem charList_cons_lt_cons_iff {a b : Char} {as bs : List Char} :
    List.lt (a :: as) (b :: bs) ↔ a < b ∨ (a = b ∧ List.lt as bs) := by
  constructor
  · intro h
    cases h with
    | head _ _ hab => exact Or.inl hab
    | tail hab hba h =>
      refine Or.inr ⟨?_, h⟩
      rw [char_lt_iff_toNat] at hab hba
      exact char_eq_of_toNat_eq a b (by omega)
  · rintro (hab | ⟨rfl, h⟩)
    · exact List.lt.head _ _ hab
    · exact List.lt.tail (by rw [char_lt_iff_toNat]; omega)
        (by rw [char_lt_iff_toNat]; omega) h

theorem charListLt_iff : ∀ l1 l2 : List Char,
    charListLt l1 l2 = true ↔ List.lt l1 l2 := by
  intro l1
  induction l1 with
  | nil =>
    intro l2
    cases l2 with
    | nil =>
      simp only [charListLt]
      constructor
      · intro h
        exact absurd h (by simp)
      · intro h
        exact absurd h charList_nil_not_lt
    | cons b bs =>
      simp only [charListLt]
      exact ⟨fun _ => List.lt.nil b bs, fun _ => trivial⟩
  | cons a as ih =>
    intro l2
    cases l2 with
    | nil =>
      simp only [charListLt]
      constructor
      · intro h
        exact absurd h (by simp)
      · intro h
        exact absurd h (fun h' => nomatch h')
    | cons b bs =>
      simp only [charListLt]
      rw [charList_cons_lt_cons_iff]
      by_cases h1 : a.toNat < b.toNat
      · rw [if_pos h1]
        constructor
        · intro _
          exact Or.inl ((char_lt_iff_toNat a b).mpr h1)
        · intro _
          rfl
      · rw [if_neg h1]
        by_cases h2 : b.toNat < a.toNat
        · rw [if_pos h2]
          constructor
          · intro h
            exact absurd h (by simp)
          · rintro (hab | ⟨rfl, _⟩)
            · rw [char_lt_iff_toNat] at hab
              omega
            · omega
        · rw [if_neg h2]
          have hab : a = b := char_eq_of_toNat_eq a b (by omega)
          subst hab
          rw [ih bs]
          constructor
          · intro h
            exact Or.inr ⟨rfl, h⟩
          · rintro (h | ⟨_, h⟩)
            · rw [char_lt_iff_toNat] at h
              omega
            · exact h

theorem digitChar_toNat (a : Nat) (ha : a ≤ 9) : (digitChar a).toNat = 48 + a := by
  interval_cases a <;> decide

theorem block_lt_iff (P d1 m1 d2 m2 : Nat) (hm1 : m1 < P) (hm2 : m2 < P) :
    P * d1 + m1 < P * d2 + m2 ↔ (d1 < d2 ∨ (d1 = d2 ∧ m1 < m2)) := by
  constructor
  · intro h
    rcases Nat.lt_trichotomy d1 d2 with h' | h' | h'
    · exact Or.inl h'
    · subst h'
      exact Or.inr ⟨rfl, by omega⟩
    · exfalso
      have hmul := Nat.mul_le_mul_left P (show d2 + 1 ≤ d1 by omega)
      rw [Nat.mul_add, Nat.mul_one] at hmul
      omega
  · rintro (h | ⟨rfl, h⟩)
    · have hmul := Nat.mul_le_mul_left P (show d1 + 1 ≤ d2 by omega)
      rw [Nat.mul_add, Nat.mul_one] at hmul
      omega
    · omega

theorem block_eq_iff (P d1 m1 d2 m2 : Nat) (hm1 : m1 < P) (hm2 : m2 < P) :
    P * d1 + m1 = P * d2 + m2 ↔ (d1 = d2 ∧ m1 = m2) := by
  constructor
  · intro h
    have h1 : ¬ (P * d1 + m1 < P * d2 + m2) := by omega
    have h2 : ¬ (P * d2 + m2 < P * d1 + m1) := by omega
    rw [block_lt_iff P d1 m1 d2 m2 hm1 hm2] at h1
    rw [block_lt_iff P d2 m2 d1 m1 hm2 hm1] at h2
    constructor
    · omega
    · omega
  · rintro ⟨rfl, rfl⟩
    rfl

theorem padNum_append_lt_iff (k : Nat) :
    ∀ (n1 n2 : Nat) (r1 r2 : List Char), n1 < 10 ^ k → n2 < 10 ^ k →
      (List.lt (padNum k n1 ++ r1) (padNum k n2 ++ r2) ↔
        (n1 < n2 ∨ (n1 = n2 ∧ List.lt r1 r2))) := by
  induction k with
  | zero =>
    intro n1 n2 r1 r2 h1 h2
    have e1 : n1 = 0 := by simpa using h1
    have e2 : n2 = 0 := by simpa using h2
    subst e1
    subst e2
    simp only [padNum, List.nil_append]
    constructor
    · intro h
      exact Or.inr ⟨by trivial, h⟩
    · rintro (h | ⟨_, h⟩)
      · omega
      · exact h
  | succ k ih =>
    intro n1 n2 r1 r2 h1 h2
    have hp : 0 < 10 ^ k := Nat.pos_pow_of_pos k (by omega)
    have hps : (10 : Nat) ^ (k + 1) = 10 ^ k * 10 := Nat.pow_succ 10 k
    have hd1 : n1 / 10 ^ k ≤ 9 := by
      have := (Nat.div_lt_iff_lt_mul hp).mpr (by omega : n1 < 10 * 10 ^ k)
      omega
    have hd2 : n2 / 10 ^ k ≤ 9 := by
      have := (Nat.div_lt_iff_lt_mul hp).mpr (by omega : n2 < 10 * 10 ^ k)
      omega
    simp only [padNum, List.cons_append]
    rw [charList_cons_lt_cons_iff]
    have hdiglt : digitChar (n1 / 10 ^ k) < digitChar (n2 / 10 ^ k) ↔
        n1 / 10 ^ k < n2 / 10 ^ k := by
      rw [char_lt_iff_toNat, digitChar_toNat _ hd1, digitChar_toNat _ hd2]
      omega
    have hdigeq : digitChar (n1 / 10 ^ k) = digitChar (n2 / 10 ^ k) ↔
        n1 / 10 ^ k = n2 / 10 ^ k := by
      constructor
      · intro h
        have := congrArg Char.toNat h
        rw [digitChar_toNat _ hd1, digitChar_toNat _ hd2] at this
        omega
      · intro h
        rw [h]
    rw [hdiglt, hdigeq,
      ih (n1 % 10 ^ k) (n2 % 10 ^ k) r1 r2 (Nat.mod_lt _ hp) (Nat.mod_lt _ hp)]
    have hblock_lt := block_lt_iff (10 ^ k) (n1 / 10 ^ k) (n1 % 10 ^ k)
      (n2 / 10 ^ k) (n2 % 10 ^ k) (Nat.mod_lt _ hp) (Nat.mod_lt _ hp)
    have hblock_eq := block_eq_iff (10 ^ k) (n1 / 10 ^ k) (n1 % 10 ^ k)
      (n2 / 10 ^ k) (n2 % 10 ^ k) (Nat.mod_lt _ hp) (Nat.mod_lt _ hp)
    rw [Nat.div_add_mod n1 (10 ^ k), Nat.div_add_mod n2 (10 ^ k)]
      at hblock_lt hblock_eq
    rw [hblock_lt, hblock_eq]
    tauto

theorem dash_cons_lt_iff (r1 r2 : List Char) :
    List.lt ('-' :: r1) ('-' :: r2) ↔ List.lt r1 r2 := by
  rw [charList_cons_lt_cons_iff]
  constructor
  · rintro (h | ⟨_, h⟩)
    · rw [char_lt_iff_toNat] at h
      omega
    · exact h
  · intro h
    exact Or.inr ⟨rfl, h⟩

theorem formatDate_lt_iff (a b : Date)
    (hay : a.year < 10000) (hby : b.year < 10000)
    (ham : a.month < 100) (hbm : b.month < 100)
    (had : a.day < 100) (hbd : b.day < 100) :
    strLt (formatDate a) (formatDate b) = true ↔ dateLt a b := by
  unfold strLt formatDate
  rw [charListLt_iff]
  show List.lt
    (padNum 4 a.year ++ ('-' :: padNum 2 a.month ++ '-' :: padNum 2 a.day))
    (padNum 4 b.year ++ ('-' :: padNum 2 b.month ++ '-' :: padNum 2 b.day)) ↔ _
  rw [padNum_append_lt_iff 4 a.year b.year _ _ (by norm_num; omega)
    (by norm_num; omega)]
  simp only [List.cons_append]
  rw [dash_cons_lt_iff]
  have hm2 : ∀ xs ys : List Char,
      List.lt (padNum 2 a.month ++ xs) (padNum 2 b.month ++ ys) ↔
        (a.month < b.month ∨ (a.month = b.month ∧ List.lt xs ys)) :=
    fun xs ys => padNum_append_lt_iff 2 a.month b.month xs ys
      (by norm_num; omega) (by norm_num; omega)
  rw [hm2, dash_cons_lt_iff]
  have hd2 : List.lt (padNum 2 a.day ++ []) (padNum 2 b.day ++ []) ↔
      (a.day < b.day ∨ (a.day = b.day ∧ List.lt ([] : List Char) [])) :=
    padNum_append_lt_iff 2 a.day b.day [] [] (by norm_num; omega)
      (by norm_num; omega)
  rw [List.append_nil, List.append_nil] at hd2
  rw [hd2]
  unfold dateLt
  have hnil := charList_nil_not_lt
  tauto

/-- C7: `isFutureDate(d)` returns true exactly when `d` is lexicographically
greater than today's formatted `YYYY-MM-DD` string, and on zero-padded dates
this lexicographic order coincides with chronological (calendar) order. -/
theorem claimC7_isFutureDate_lexical (now : Date) (s : String) :
    (isFutureDate now s = true ↔ List.lt (formatDate now).data s.data) ∧
    (∀ a b : Date, a.year < 10000 → b.year < 10000 → a.month < 100 →
      b.month < 100 → a.day < 100 → b.day < 100 →
      (strLt (formatDate a) (formatDate b) = true ↔ dateLt a b)) := by
  constructor
  · unfold isFutureDate strLt
    exact charListLt_iff (formatDate now).data s.data
  · intro a b h1 h2 h3 h4 h5 h6
    exact formatDate_lt_iff a b h1 h2 h3 h4 h5 h6

/-- C7 witness at concrete inputs. -/
theorem claimC7_witness :
    (isFutureDate ⟨2024, 3, 10⟩ "2024-03-11" = true ↔
      List.lt (formatDate ⟨2024, 3, 10⟩).data ("2024-03-11").data) ∧
    ((2024 : Nat) < 10000 ∧ (2024 : Nat) < 10000 ∧ (3 : Nat) < 100 ∧
      (3 : Nat) < 100 ∧ (10 : Nat) < 100 ∧ (11 : Nat) < 100) ∧
    (strLt (formatDate ⟨2024, 3, 10⟩) (formatDate ⟨2024, 3, 11⟩) = true ↔
      dateLt ⟨2024, 3, 10⟩ ⟨2024, 3, 11⟩) :=
  ⟨(claimC7_isFutureDate_lexical ⟨2024, 3, 10⟩ "2024-03-11").1,
    ⟨by decide, by decide, by decide, by decide, by decide, by decide⟩,
    (claimC7_isFutureDate_lexical ⟨2024, 3, 10⟩ "2024-03-11").2
      ⟨2024, 3, 10⟩ ⟨2024, 3, 11⟩ (by decide) (by decide) (by decide)
      (by decide) (by decide) (by decide)⟩

theorem year_lt_of_dayNumber_lt (d : Date) (hv : ValidDate d) (y : Nat)
    (h : toDayNumber d < daysBeforeYear y) : d.year < y := by
  by_contra hc
  have h1 := daysBeforeYear_mono (show y ≤ d.year by omega)
  have h2 := (toDayNumber_year_bounds d hv).1
  omega

theorem mkDayCell_future_facts (tCheck : Date) (visits : List String) (d : Date)
    (h1 : tCheck.year < 10000) (h2 : d.year < 10000)
    (h3 : tCheck.month < 100) (h4 : d.month < 100)
    (h5 : tCheck.day < 100) (h6 : d.day < 100)
    (hlt : dateLt tCheck d) :
    (mkDayCell tCheck visits d).isFuture = true ∧
    cellStyle (mkDayCell tCheck visits d) ≠ CellStyle.visited ∧
    (mkDayCell tCheck visits d).isVisited = hasVisit visits (formatDate d) := by
  have hf : isFutureDate tCheck (formatDate d) = true := by
    unfold isFutureDate
    exact (formatDate_lt_iff tCheck d h1 h2 h3 h4 h5 h6).mpr hlt
  refine ⟨hf, ?_, rfl⟩
  have hstyle : cellStyle (mkDayCell tCheck visits d) = CellStyle.future := by
    unfold cellStyle
    rw [show (mkDayCell tCheck visits d).isFuture = true from hf]
    rfl
  rw [hstyle]
  decide

theorem daysInYear_ge_365 (y : Nat) : 365 ≤ daysInYear y := by
  unfold daysInYear
  split <;> omega

theorem getFullWeekDays_mem_spec (d0 : Date) (rest : List Date)
    (hv : ValidDate d0) (hy : 2 ≤ d0.year) (od : Option Date)
    (hod : od ∈ getFullWeekDays (d0 :: rest)) :
    ∃ di : Date, od = some di ∧ ValidDate di ∧
      toDayNumber di ≤ toDayNumber d0 + 6 := by
  have h365 : 365 ≤ toDayNumber d0 := by
    have h1 := (toDayNumber_year_bounds d0 hv).1
    have h2 := daysBeforeYear_mono hy
    have h3 : daysBeforeYear 2 = 365 := by decide
    omega
  simp only [getFullWeekDays] at hod
  obtain ⟨i, hi, rfl⟩ := List.mem_map.mp hod
  rw [List.mem_range] at hi
  set N := toDayNumber d0 with hN
  have hback : (if jsGetDay d0 = 0 then 6 else jsGetDay d0 - 1) = N % 7 := by
    unfold jsGetDay
    rw [← hN]
    split <;> omega
  rw [hback] at *
  obtain ⟨hvm, hNm⟩ := toDayNumber_subDays d0 hv (N % 7) (by omega)
  obtain ⟨hvi, hNi⟩ := toDayNumber_addDays (subDays d0 (N % 7)) hvm i
  exact ⟨_, rfl, hvi, by omega⟩

/-- C1 (amended): every non-null cell of the month, year or week grid whose
date is after today is marked `isFuture = true`, and the rendering ternary
never displays it in the visited style; its `isVisited` flag, however, is
exactly membership of the date in the visit collection (it is `true` when
the future date is present in V). -/
theorem claimC1_amended (now : Date) (visits : List String) (days : List Date)
    (hv : ValidDate now) (hy : now.year < 10000)
    (hdays : ∀ d ∈ days, ValidDate d ∧ 2 ≤ d.year ∧ d.year + 2 ≤ 10000) :
    (∀ w ∈ (MonthGrid now now visits days).2, ∀ c : DayCell, some c ∈ w →
      dateLt now c.date →
      c.isFuture = true ∧ cellStyle c ≠ CellStyle.visited ∧
      c.isVisited = hasVisit visits (formatDate c.date)) ∧
    (∀ w ∈ (YearGrid now now visits days).2.2, ∀ c : DayCell, some c ∈ w →
      dateLt now c.date →
      c.isFuture = true ∧ cellStyle c ≠ CellStyle.visited ∧
      c.isVisited = hasVisit visits (formatDate c.date)) ∧
    (∀ oc ∈ WeekGrid now visits days, ∀ c : DayCell, oc = some c →
      dateLt now c.date →
      c.isFuture = true ∧ cellStyle c ≠ CellStyle.visited ∧
      c.isVisited = hasVisit visits (formatDate c.date)) := by
  obtain ⟨hy1, hm1, hm2, hd1, hd2⟩ := hv
  have hv' : ValidDate now := ⟨hy1, hm1, hm2, hd1, hd2⟩
  have hnow31 := daysInMonth_le_31 now.year now.month
  refine ⟨?_, ?_, ?_⟩
  · intro w hw c hc hlt
    obtain ⟨w0, hw0, hd0, hcd⟩ := cellWeeks_cell_mem hw hc
    have hP : c.date.year = now.year ∧ c.date.month = now.month ∧
        c.date.day ≤ daysInMonth now.year now.month := by
      refine groupIntoWeeks_mem
        (fun d => d.year = now.year ∧ d.month = now.month ∧
          d.day ≤ daysInMonth now.year now.month)
        (getFullMonthDays now) ?_ w0 hw0 c.date hd0
      intro d hd
      obtain ⟨i, hi, rfl⟩ := List.mem_map.mp hd
      rw [List.mem_range] at hi
      exact ⟨rfl, rfl, by show i + 1 ≤ _; omega⟩
    obtain ⟨hPy, hPm, hPd⟩ := hP
    obtain ⟨hfut, hsty, hvis⟩ := mkDayCell_future_facts now visits c.date hy
      (by omega) (by omega) (by omega) (by omega) (by omega) hlt
    exact ⟨by rw [hcd]; exact hfut, by rw [hcd]; exact hsty,
      by rw [hcd]; exact hvis⟩
  · intro w hw c hc hlt
    obtain ⟨w0, hw0, hd0, hcd⟩ := cellWeeks_cell_mem hw hc
    have hP : ValidDate c.date ∧ c.date.year = now.year := by
      refine groupIntoWeeks_mem
        (fun d => ValidDate d ∧ d.year = now.year)
        (getFullYearDays now) ?_ w0 hw0 c.date hd0
      intro d hd
      rw [getFullYearDays_eq_dayRun now hy1] at hd
      obtain ⟨t, ht, _, hvd, hNd⟩ := dayRun_mem_spec (jan1_valid now.year hy1) hd
      have hN1 := toDayNumber_jan1 now.year
      have hstep := daysBeforeYear_succ now.year hy1
      exact ⟨hvd, year_eq_of_dayNumber_bounds d hvd now.year (by omega) (by omega)⟩
    obtain ⟨⟨hcy, hcm1, hcm2, hcd1, hcd2⟩, hPy⟩ := hP
    have hc31 := daysInMonth_le_31 c.date.year c.date.month
    obtain ⟨hfut, hsty, hvis⟩ := mkDayCell_future_facts now visits c.date hy
      (by omega) (by omega) (by omega) (by omega) (by omega) hlt
    exact ⟨by rw [hcd]; exact hfut, by rw [hcd]; exact hsty,
      by rw [hcd]; exact hvis⟩
  · intro oc hoc c hceq hlt
    subst hceq
    unfold WeekGrid at hoc
    obtain ⟨od, hod, hmap⟩ := List.mem_map.mp hoc
    cases days with
    | nil =>
      exfalso
      simp only [getFullWeekDays] at hod
      rw [List.mem_replicate] at hod
      rw [hod.2] at hmap
      exact absurd hmap (by simp)
    | cons d0 rest =>
      obtain ⟨hv0, hy0, hy0'⟩ := hdays d0 (List.mem_cons_self d0 rest)
      obtain ⟨di, hdi, hvdi, hNdi⟩ :=
        getFullWeekDays_mem_spec d0 rest hv0 hy0 od hod
      subst hdi
      have hcdi : mkDayCell now visits di = c := by
        have h' : some (mkDayCell now visits di) = some c := hmap
        injection h'
      have hdiy : di.year < 10000 := by
        have hb := (toDayNumber_year_bounds d0 hv0).2
        have hstep := daysBeforeYear_succ (d0.year + 1) (by omega)
        have h365 := daysInYear_ge_365 (d0.year + 1)
        have hylt := year_lt_of_dayNumber_lt di hvdi (d0.year + 1 + 1) (by omega)
        omega
      obtain ⟨hdiy1, hdim1, hdim2, hdid1, hdid2⟩ := hvdi
      have hdi31 := daysInMonth_le_31 di.year di.month
      have hltdi : dateLt now di := by
        rw [← hcdi] at hlt
        exact hlt
      obtain ⟨hfut, hsty, hvis⟩ := mkDayCell_future_facts now visits di hy
        (by omega) (by omega) (by omega) (by omega) (by omega) hltdi
      exact ⟨by rw [← hcdi]; exact hfut, by rw [← hcdi]; exact hsty,
        by rw [← hcdi]; exact hvis⟩

/-- C1 witness at a concrete date with a future visit present. -/
theorem claimC1_amended_witness :
    ValidDate ⟨2024, 3, 10⟩ ∧ (⟨2024, 3, 10⟩ : Date).year < 10000 ∧
    (∀ d ∈ [(⟨2024, 3, 10⟩ : Date)],
      ValidDate d ∧ 2 ≤ d.year ∧ d.year + 2 ≤ 10000) ∧
    ((∀ w ∈ (MonthGrid ⟨2024, 3, 10⟩ ⟨2024, 3, 10⟩ ["2024-03-11"]
        [⟨2024, 3, 10⟩]).2, ∀ c : DayCell, some c ∈ w →
      dateLt ⟨2024, 3, 10⟩ c.date →
      c.isFuture = true ∧ cellStyle c ≠ CellStyle.visited ∧
      c.isVisited = hasVisit ["2024-03-11"] (formatDate c.date)) ∧
    (∀ w ∈ (YearGrid ⟨2024, 3, 10⟩ ⟨2024, 3, 10⟩ ["2024-03-11"]
        [⟨2024, 3, 10⟩]).2.2, ∀ c : DayCell, some c ∈ w →
      dateLt ⟨2024, 3, 10⟩ c.date →
      c.isFuture = true ∧ cellStyle c ≠ CellStyle.visited ∧
      c.isVisited = hasVisit ["2024-03-11"] (formatDate c.date)) ∧
    (∀ oc ∈ WeekGrid ⟨2024, 3, 10⟩ ["2024-03-11"] [⟨2024, 3, 10⟩],
      ∀ c : DayCell, oc = some c →
      dateLt ⟨2024, 3, 10⟩ c.date →
      c.isFuture = true ∧ cellStyle c ≠ CellStyle.visited ∧
      c.isVisited = hasVisit ["2024-03-11"] (formatDate c.date))) :=
  ⟨by decide, by decide, by decide,
    claimC1_amended ⟨2024, 3, 10⟩ ["2024-03-11"] [⟨2024, 3, 10⟩]
      (by decide) (by decide) (by decide)⟩

set_option maxRecDepth 100000 in
/-- C1 counterexample: with today 2024-03-10 and the future date 2024-03-11
present in the visit collection, the month grid contains a cell after today
whose `isVisited` flag is `true` (alongside `isFuture = true`), so a future
cell is not unconditionally unvisited. -/
theorem claimC1_counterexample :
    dateLt ⟨2024, 3, 10⟩ ⟨2024, 3, 11⟩ ∧
    (MonthGrid ⟨2024, 3, 10⟩ ⟨2024, 3, 10⟩ ["2024-03-11"] []).2.flatten.contains
      (some { date := ⟨2024, 3, 11⟩, isVisited := true, isFuture := true })
      = true :=
  ⟨by decide, rfl⟩

/-! ## Month labels of the year grid -/

/-- The `YYYY-MM` key of a column's first non-null day, when the column has
one. -/
def firstDayKey (w : List (Option Date)) : Option String :=
  (w.findSome? id).map monthKey

theorem monthLabelsLoop_cons (w : List (Option Date))
    (ws : List (List (Option Date))) (lastM : String) :
    monthLabelsLoop (w :: ws) lastM =
      match w.findSome? id with
      | some d =>
        if monthKey d ≠ lastM then
          getMonthName (monthKey d) :: monthLabelsLoop ws (monthKey d)
        else
          "" :: monthLabelsLoop ws lastM
      | none => "" :: monthLabelsLoop ws lastM := rfl

theorem getLast?_cons_getD (a x : String) (l : List String) :
    ((a :: l).getLast?).getD x = (l.getLast?).getD a := by
  cases l with
  | nil => rfl
  | cons b bs =>
    rw [List.getLast?_cons_cons]
    cases h : (b :: bs).getLast? with
    | none =>
      exfalso
      rw [List.getLast?_eq_none_iff] at h
      exact absurd h (by simp)
    | some y => rfl

theorem monthLabelsLoop_spec (ws : List (List (Option Date))) :
    ∀ lastM : String,
      (monthLabelsLoop ws lastM).length = ws.length ∧
      ∀ j, j < ws.length →
        (monthLabelsLoop ws lastM).getD j ("") =
          ((ws.getD j []).findSome? id).elim ("")
            (fun d =>
              if ((ws.take j).filterMap firstDayKey).getLast?.getD lastM
                  = monthKey d
              then "" else getMonthName (monthKey d)) := by
  induction ws with
  | nil =>
    intro lastM
    exact ⟨rfl, fun j hj => absurd hj (by simp)⟩
  | cons w ws ih =>
    intro lastM
    cases hfs : w.findSome? id with
    | none =>
      have hred : monthLabelsLoop (w :: ws) lastM
          = "" :: monthLabelsLoop ws lastM := by
        rw [monthLabelsLoop_cons, hfs]
      rw [hred]
      refine ⟨by simpa using (ih lastM).1, ?_⟩
      intro j hj
      cases j with
      | zero =>
        simp only [List.getD_cons_zero, hfs]
        rfl
      | succ j =>
        have hkey : firstDayKey w = none := by
          unfold firstDayKey
          rw [hfs]
          rfl
        have htake : ((w :: ws).take (j + 1)).filterMap firstDayKey
            = (ws.take j).filterMap firstDayKey := by
          rw [List.take_succ_cons, List.filterMap_cons, hkey]
        rw [List.getD_cons_succ, List.getD_cons_succ, htake]
        exact (ih lastM).2 j (by simpa using hj)
    | some d =>
      have hred : monthLabelsLoop (w :: ws) lastM
          = if monthKey d ≠ lastM then
              getMonthName (monthKey d) :: monthLabelsLoop ws (monthKey d)
            else "" :: monthLabelsLoop ws lastM := by
        rw [monthLabelsLoop_cons, hfs]
      rw [hred]
      by_cases hne : monthKey d ≠ lastM
      · rw [if_pos hne]
        refine ⟨by simpa using (ih (monthKey d)).1, ?_⟩
        intro j hj
        cases j with
        | zero =>
          simp only [List.getD_cons_zero, hfs]
          show getMonthName (monthKey d)
            = if lastM = monthKey d then ("") else getMonthName (monthKey d)
          rw [if_neg (fun h => hne h.symm)]
        | succ j =>
          have hkey : firstDayKey w = some (monthKey d) := by
            unfold firstDayKey
            rw [hfs]
            rfl
          have htake : ((w :: ws).take (j + 1)).filterMap firstDayKey
              = monthKey d :: (ws.take j).filterMap firstDayKey := by
            rw [List.take_succ_cons, List.filterMap_cons, hkey]
          rw [List.getD_cons_succ, List.getD_cons_succ, htake,
            getLast?_cons_getD]
          exact (ih (monthKey d)).2 j (by simpa using hj)
      · rw [if_neg hne]
        have heq : monthKey d = lastM := not_not.mp hne
        refine ⟨by simpa using (ih lastM).1, ?_⟩
        intro j hj
        cases j with
        | zero =>
          simp only [List.getD_cons_zero, hfs]
          show ("" : String)
            = if lastM = monthKey d then ("") else getMonthName (monthKey d)
          rw [if_pos heq.symm]
        | succ j =>
          have hkey : firstDayKey w = some (monthKey d) := by
            unfold firstDayKey
            rw [hfs]
            rfl
          have htake : ((w :: ws).take (j + 1)).filterMap firstDayKey
              = monthKey d :: (ws.take j).filterMap firstDayKey := by
            rw [List.take_succ_cons, List.filterMap_cons, hkey]
          rw [List.getD_cons_succ, List.getD_cons_succ, htake,
            getLast?_cons_getD, heq]
          exact (ih lastM).2 j (by simpa using hj)

/-- C2 (amended): in the year grid each week-column receives exactly one
label, but the label is driven solely by the column's FIRST non-null day: a
column with no day is labelled with the empty string, and a column whose
first day has month key `k` is labelled `getMonthName k` exactly when `k`
differs from the key of the first day of the latest previous column that had
one (initially the empty string), and with the empty string otherwise.  A
month that starts in the middle of a column therefore gets its label one
column late, not at the first column in which its key appears. -/
theorem claimC2_amended (tEnum tCheck : Date) (visits : List String)
    (days : List Date) :
    (YearGrid tEnum tCheck visits days).2.1.length
      = (yearDateWeeks tEnum).length ∧
    ∀ j, j < (yearDateWeeks tEnum).length →
      (YearGrid tEnum tCheck visits days).2.1.getD j ("") =
        (((yearDateWeeks tEnum).getD j []).findSome? id).elim ("")
          (fun d =>
            if (((yearDateWeeks tEnum).take j).filterMap
                  firstDayKey).getLast?.getD ("") = monthKey d
            then "" else getMonthName (monthKey d)) :=
  monthLabelsLoop_spec (yearDateWeeks tEnum) ("")

set_option maxRecDepth 100000 in
/-- Witness for C2 (amended): at reference date 2024-05-05, column 5 of the
year grid is characterized by the theorem at a concrete index. -/
theorem claimC2_amended_witness :
    5 < (yearDateWeeks ⟨2024, 5, 5⟩).length ∧
    (YearGrid ⟨2024, 5, 5⟩ ⟨2024, 5, 5⟩ [] []).2.1.getD 5 ("") =
      (((yearDateWeeks ⟨2024, 5, 5⟩).getD 5 []).findSome? id).elim ("")
        (fun d =>
          if (((yearDateWeeks ⟨2024, 5, 5⟩).take 5).filterMap
                firstDayKey).getLast?.getD ("") = monthKey d
          then "" else getMonthName (monthKey d)) := by
  have hlen : (yearDateWeeks ⟨2024, 5, 5⟩).length = 53 := rfl
  refine ⟨by omega, ?_⟩
  exact (claimC2_amended ⟨2024, 5, 5⟩ ⟨2024, 5, 5⟩ [] []).2 5 (by omega)

set_option maxRecDepth 100000 in
/-- Counterexample to C2 as stated: in the 2024 year grid, the month key
2024-02 first appears among the days of column 4 (2024-02-01 is in that
column, and every day of columns 0 through 3 lies in January), and
`getMonthName` of that key is the non-empty string "February"; yet the label
of column 4 is the empty string — the non-empty label is NOT placed at the
first column in which the new month key appears. -/
theorem claimC2_counterexample :
    ((yearDateWeeks ⟨2024, 5, 5⟩).getD 4 []).contains
      (some (⟨2024, 2, 1⟩ : Date)) = true ∧
    ((yearDateWeeks ⟨2024, 5, 5⟩).take 4).all
      (fun w => w.all (fun od => od.elim true (fun d => d.month == 1)))
      = true ∧
    getMonthName (monthKey ⟨2024, 2, 1⟩) = "February" ∧
    (YearGrid ⟨2024, 5, 5⟩ ⟨2024, 5, 5⟩ [] []).2.1.getD 4 ("x") = "" :=
  ⟨rfl, rfl, rfl, rfl⟩

/-! ## Read skew of the reference date (C8) -/

/-- C8 (amended): the grid computations observe one consistent reference
date only under the extra hypothesis that the separate wall-clock reads
return the same date.  When the read backing the day range and title
(`tEnum`) and the read inside each future check (`tCheck`) agree, the month
and year grids coincide with the spec's single-reference-date composition;
the code itself performs the reads independently, so nothing forces the
hypothesis to hold. -/
theorem claimC8_amended (t1 t2 : Date) (visits : List String)
    (days : List Date) (h : t1 = t2) :
    MonthGrid t1 t2 visits days = specMonthGrid t1 visits days ∧
    YearGrid t1 t2 visits days = specYearGrid t1 visits days := by
  subst h
  exact ⟨rfl, rfl⟩

/-- Witness for C8 (amended): with both reads returning 2024-03-10, the
month and year grids match the single-reference-date composition. -/
theorem claimC8_amended_witness :
    (⟨2024, 3, 10⟩ : Date) = (⟨2024, 3, 10⟩ : Date) ∧
    (MonthGrid ⟨2024, 3, 10⟩ ⟨2024, 3, 10⟩ [] []
        = specMonthGrid ⟨2024, 3, 10⟩ [] [] ∧
      YearGrid ⟨2024, 3, 10⟩ ⟨2024, 3, 10⟩ [] []
        = specYearGrid ⟨2024, 3, 10⟩ [] []) :=
  ⟨rfl, claimC8_amended ⟨2024, 3, 10⟩ ⟨2024, 3, 10⟩ [] [] rfl⟩

set_option maxRecDepth 100000 in
/-- Counterexample to C8 as stated: the component reads the wall clock
separately for the day enumeration and for the future checks.  If the first
read returns 2024-03-10 and the second 2024-03-11 (a strictly later date),
the resulting month grid differs from every single-reference-date grid built
from the first read: the cell for 2024-03-11 is marked not-future (the later
clock no longer considers it future) even though the enumeration's own
"today" is 2024-03-10 — one grid mixes two different values of "today". -/
theorem claimC8_counterexample :
    dateLt ⟨2024, 3, 10⟩ ⟨2024, 3, 11⟩ ∧
    (MonthGrid ⟨2024, 3, 10⟩ ⟨2024, 3, 11⟩ [] []
        == specMonthGrid ⟨2024, 3, 10⟩ [] []) = false ∧
    (MonthGrid ⟨2024, 3, 10⟩ ⟨2024, 3, 11⟩ [] []).2.flatten.contains
      (some { date := ⟨2024, 3, 11⟩, isVisited := false, isFuture := false })
      = true :=
  ⟨by decide, rfl, rfl⟩
